import Mathlib

/-!
# Verification of the custom feature definition engine (`mltsp/custom_feature_tools.py`)

A shallow embedding of the feature-engine core: the contract parser
(`parse_for_req_prov_params`), the contract-enforcing wrapper (`myFeature` /
`wrapped_f`), the round-based dependency scheduler (`call_custom_functions`,
`execute_functions_in_order`), the time-series input normalizer
(`add_tsdata_to_feats_known_dict`), and the sandbox orchestration control flow
(`extract_feats_in_docker_container`, `docker_extract_features`,
`remove_tmp_files`).

Python dictionaries are modelled as association lists with a
"later binding wins" lookup, which matches both plain-key lookup and the
source's merge idiom `dict(list(a.items()) + list(b.items()))`.
Feature values are an abstract type `V`; user-defined feature functions are
modelled as an oracle `defs : String → List (String × V) → List (String × V)`
mapping a function name and its keyword-argument dictionary to the returned
dictionary, exactly the shape `getattr(custom_feature_defs, funcname)(**arguments)`
consumes and produces.

The scheduler's `while` loop has no termination guard in the source, so the
embedding takes a fuel parameter counting rounds; exhausting any fuel
(`SchedResult.hang` for every fuel value) models the loop running forever.
-/

/-- Lookup in a Python-dict-as-association-list: the most recently appended
binding for a key wins, mirroring `dict(list(a.items()) + list(b.items()))`. -/
def dget? {V : Type} : List (String × V) → String → Option V
  | [], _ => none
  | (k, v) :: rest, key =>
    match dget? rest key with
    | some w => some w
    | none => if k == key then some v else none

/-- Python `key in d` membership test on a modelled dictionary. -/
def dmem {V : Type} (d : List (String × V)) (key : String) : Bool :=
  (dget? d key).isSome

/-- The (requires, provides) contract attached to one user function by its
`@myFeature(requires=..., provides=...)` annotation. -/
structure ReqsProvs where
  reqList : List String
  provList : List String
deriving DecidableEq, Repr

/-- Argument gathering for one scheduled function
(`custom_feature_tools.py:233-238`): for each required name take the value
from `features_already_known` if the key is present there, otherwise from
`all_extracted_features` if present there, otherwise omit it. -/
def gatherArgs {V : Type} (known extracted : List (String × V)) :
    List String → List (String × V)
  | [] => []
  | req :: rest =>
    match dget? known req with
    | some v => (req, v) :: gatherArgs known extracted rest
    | none =>
      match dget? extracted req with
      | some v => (req, v) :: gatherArgs known extracted rest
      | none => gatherArgs known extracted rest

/-- One recorded user-function invocation: the function name, the scheduler
round (`func_rounds` key) in which it ran, the gathered argument dictionary,
and the returned dictionary.  The source performs these calls imperatively;
the trace is the specification-level record of them. -/
structure ExecEntry (V : Type) where
  fname : String
  round : Nat
  args : List (String × V)
  result : List (String × V)
deriving DecidableEq, Repr

/-- State produced by one pass of the `for funcname in funcnames` loop. -/
structure RoundOut (V : Type) where
  rem : List String
  pending : List String
  extracted : List (String × V)
  trace : List (ExecEntry V)

/-- One round of the scheduler: the body of `for funcname in funcnames`
(`custom_feature_tools.py:223-244`).  A function whose `requires` meets the
pending set (`all_required_params_copy`) is deferred; otherwise it executes:
its provided names leave the pending set, its arguments are gathered, it is
invoked, its result dictionary is merged into `all_extracted_features`, and
it is removed from `funcnames`.  CPython list iteration is index-based, so
`funcnames.remove(funcname)` makes the iterator skip the element that
followed the executed one; that element stays in the list for the next
round, which the `g :: rest2` branch reproduces. -/
def runRound {V : Type} (defs : String → List (String × V) → List (String × V))
    (rp : String → ReqsProvs) (known : List (String × V)) (i : Nat) :
    List String → List String → List (String × V) → List (ExecEntry V) →
    RoundOut V
  | [], pending, extracted, trace => ⟨[], pending, extracted, trace⟩
  | f :: rest, pending, extracted, trace =>
    match pending.any (fun x => (rp f).reqList.contains x) with
    | true =>
      let o := runRound defs rp known i rest pending extracted trace
      ⟨f :: o.rem, o.pending, o.extracted, o.trace⟩
    | false =>
      let pending2 := pending.filter (fun x => !((rp f).provList.contains x))
      let args := gatherArgs known extracted (rp f).reqList
      let res := defs f args
      let extracted2 := extracted ++ res
      let trace2 := trace ++ [⟨f, i, args, res⟩]
      match rest with
      | [] => ⟨[], pending2, extracted2, trace2⟩
      | g :: rest2 =>
        let o := runRound defs rp known i rest2 pending2 extracted2 trace2
        ⟨g :: o.rem, o.pending, o.extracted, o.trace⟩

/-- Outcome of one scheduler run on one `features_already_known` instance. -/
inductive SchedResult (V : Type) where
  | ok (extracted : List (String × V)) (trace : List (ExecEntry V))
  | unsat (name : String)
  | hang
deriving DecidableEq, Repr

/-- The scheduler's `while len(funcnames) > 0` loop
(`custom_feature_tools.py:221-245`), with fuel counting rounds.  The source
has no cycle guard; a run that returns `.hang` for every fuel value is a run
in which the source loops forever. -/
def runRounds {V : Type} (defs : String → List (String × V) → List (String × V))
    (rp : String → ReqsProvs) (known : List (String × V)) :
    Nat → Nat → List String → List String → List (String × V) →
    List (ExecEntry V) → SchedResult V
  | 0, _, _, _, _, _ => .hang
  | _ + 1, _, [], _, extracted, trace => .ok extracted trace
  | fuel + 1, i, f :: rest, pending, extracted, trace =>
    let o := runRound defs rp known i (f :: rest) pending extracted trace
    runRounds defs rp known fuel (i + 1) o.rem o.pending o.extracted o.trace

/-- Per-instance body of `call_custom_functions`
(`custom_feature_tools.py:206-246`): build the pending set
`all_required_params_copy` from the required names not already known, raise
the unsatisfiable-dependency `Exception` on the first pending name no
function provides, then run the round loop. -/
def call_custom_functions_one {V : Type}
    (fuel : Nat) (defs : String → List (String × V) → List (String × V))
    (rp : String → ReqsProvs) (funcnames allReq allProv : List String)
    (known : List (String × V)) : SchedResult V :=
  let pending := allReq.filter (fun x => !(dmem known x))
  match pending.find? (fun r => !(allProv.contains r)) with
  | some r => .unsat r
  | none => runRounds defs rp known fuel 0 funcnames pending [] []

/-- Outcome of a batch run over a list of instances. -/
inductive BatchResult (V : Type) where
  | ok (results : List (List (String × V)))
  | unsat (name : String)
  | hang
deriving DecidableEq, Repr

/-- `call_custom_functions` (`custom_feature_tools.py:188-249`): the
instances are processed sequentially, the per-instance extracted
dictionaries are collected positionally, and a raised exception (or a
non-terminating instance) aborts the whole batch. -/
def call_custom_functions {V : Type}
    (fuel : Nat) (defs : String → List (String × V) → List (String × V))
    (rp : String → ReqsProvs) (funcnames allReq allProv : List String) :
    List (List (String × V)) → BatchResult V
  | [] => .ok []
  | known :: rest =>
    match call_custom_functions_one fuel defs rp funcnames allReq allProv known with
    | .ok extracted _ =>
      match call_custom_functions fuel defs rp funcnames allReq allProv rest with
      | .ok results => .ok (extracted :: results)
      | .unsat r => .unsat r
      | .hang => .hang
    | .unsat r => .unsat r
    | .hang => .hang

/-!
Text matching for the contract parser is modelled at the character-list
level (`String.data`) with structurally recursive functions, covering the
documented annotation format (spec section 6): core `String` primitives
such as `splitOn` are not structurally recursive and would block
definitional evaluation.
-/

/-- Does `pat` occur at the start of `l`? -/
def prefixTest : List Char → List Char → Bool
  | [], _ => true
  | _ :: _, [] => false
  | a :: pa, b :: rest => a == b && prefixTest pa rest

/-- Does `pat` occur at the end of `l`? -/
def suffixTest (pat l : List Char) : Bool :=
  prefixTest pat.reverse l.reverse

/-- Does `pat` occur anywhere in `l`? -/
def hasSubstr (pat : List Char) : List Char → Bool
  | [] => pat.isEmpty
  | c :: rest => prefixTest pat (c :: rest) || hasSubstr pat rest

/-- Substring containment, Python's `pat in s` for strings. -/
def containsSub (s pat : String) : Bool := hasSubstr pat.data s.data

/-- Python's `str.strip()`: remove leading and trailing whitespace. -/
def charTrim (l : List Char) : List Char :=
  ((l.dropWhile Char.isWhitespace).reverse.dropWhile Char.isWhitespace).reverse

/-- Split at the FIRST occurrence of `pat`, returning the text before and
after it; `none` when `pat` does not occur. -/
def splitFirst (pat : List Char) : List Char → Option (List Char × List Char)
  | [] => if pat.isEmpty then some ([], []) else none
  | c :: rest =>
    if prefixTest pat (c :: rest) then some ([], (c :: rest).drop pat.length)
    else
      match splitFirst pat rest with
      | some (pre, post) => some (c :: pre, post)
      | none => none

/-- Split on every occurrence of the separator character. -/
def splitChar (sep : Char) : List Char → List (List Char)
  | [] => [[]]
  | c :: rest =>
    if c == sep then [] :: splitChar sep rest
    else
      match splitChar sep rest with
      | [] => [[c]]
      | x :: xs => (c :: x) :: xs

/-- Strip one layer of matching single or double quotes from a trimmed
token, the forms Python's `eval` accepts for a string literal in the
annotation format: `none` models `eval` rejecting the token. -/
def unquoteTok (cs : List Char) : Option String :=
  match charTrim cs with
  | [] => none
  | c :: rest =>
    match rest.getLast? with
    | some last =>
      if (c == '"' || c == Char.ofNat 39) && last == c then
        some (String.mk rest.dropLast)
      else none
    | none => none

/-- `eval` of one of the two list literals in an annotation, modelled for the
documented contract format: a bracketed, comma-separated list of quoted
string names.  `none` models `eval` raising (for example `SyntaxError` on a
malformed literal), which propagates out of `parse_for_req_prov_params`. -/
def evalStrList (cs : List Char) : Option (List String) :=
  let t := charTrim cs
  if prefixTest "[".data t && suffixTest "]".data t then
    let inner := charTrim ((t.drop 1).dropLast)
    if inner.isEmpty then some []
    else (splitChar ',' inner).mapM unquoteTok
  else none

/-- The `parse` library template for the annotation line:
the stripped line must be the literal text `@myFeature(requires=` + R +
`, provides=` + P + `)`, with R matched non-greedily (up to the first
occurrence of the `, provides=` separator).  `none` models `parse`
returning `None`, whose `.named` access then raises `AttributeError`. -/
def matchReqProv (cs : List Char) : Option (List Char × List Char) :=
  if prefixTest "@myFeature(requires=".data cs && suffixTest ")".data cs then
    let body := (cs.drop "@myFeature(requires=".data.length).dropLast
    splitFirst ", provides=".data body
  else none

/-- The `parse` template `def ` + name + `(` + args + `):` for the function
declaration line; the declared name is the text before the first `(`. -/
def matchDef (cs : List Char) : Option String :=
  if prefixTest "def ".data cs && suffixTest "):".data cs then
    match splitFirst "(".data (cs.drop "def ".data.length) with
    | some (fn, _) => some (String.mk fn)
    | none => none
  else none

/-- The scan loop of `parse_for_req_prov_params`
(`custom_feature_tools.py:156-171`): for every adjacent pair of lines where
the first contains `@myFeature` and the second contains `def `, match both
patterns and evaluate the two list literals; any pattern or literal failure
raises out of the function (`.error`).  Pairs not meeting the two
containment tests are skipped. -/
def scanPairs : List String → Except String (List (String × ReqsProvs))
  | l0 :: l1 :: rest =>
    if containsSub l0 "@myFeature" && containsSub l1 "def " then
      match matchReqProv (charTrim l0.data), matchDef (charTrim l1.data) with
      | some (rs, ps), some fname =>
        match evalStrList rs, evalStrList ps with
        | some reqs, some provs =>
          match scanPairs (l1 :: rest) with
          | .ok d => .ok ((fname, ⟨reqs, provs⟩) :: d)
          | .error e => .error e
        | _, _ => .error "SyntaxError: malformed list literal in annotation"
      | _, _ => .error "AttributeError: annotation or def line does not match pattern"
    else scanPairs (l1 :: rest)
  | _ => .ok []

/-- Union with the order of first occurrence, modelling the source's
repeated `list(set(acc + new))` accumulation (whose order Python leaves
unspecified; only membership is relied on downstream). -/
def setUnionAll (xss : List (List String)) : List String := xss.flatten.dedup

/-- `parse_for_req_prov_params` (`custom_feature_tools.py:148-172`): returns
the function-name-to-contract dictionary together with the union of all
required and all provided names.  The script is given as its list of source
lines. -/
def parse_for_req_prov_params (lines : List String) :
    Except String (List (String × ReqsProvs) × List String × List String) :=
  match scanPairs lines with
  | .error e => .error e
  | .ok d =>
    .ok (d, setUnionAll (d.map (fun p => p.2.reqList)),
         setUnionAll (d.map (fun p => p.2.provList)))

/-- Lookup of `fnames_req_prov_dict[funcname]`; the scheduler only looks up
names that are keys of the dictionary. -/
def rpLookup (d : List (String × ReqsProvs)) (f : String) : ReqsProvs :=
  (dget? d f).getD ⟨[], []⟩

/-- `list(fnames_req_prov_dict.keys())`: first-insertion order, one entry
per name. -/
def dKeys (d : List (String × ReqsProvs)) : List String :=
  (d.map Prod.fst).dedup

/-- `execute_functions_in_order` (`custom_feature_tools.py:252-301`): parse
the script, then call the batch scheduler.  The source passes
`all_required_params` as BOTH the required and the provided parameter sets
(`custom_feature_tools.py:297-299`); the embedding reproduces that call
faithfully. -/
def execute_functions_in_order {V : Type} (fuel : Nat)
    (defs : String → List (String × V) → List (String × V))
    (lines : List String) (knownList : List (List (String × V))) :
    Except String (BatchResult V) :=
  match parse_for_req_prov_params lines with
  | .error e => .error e
  | .ok (d, allReq, _allProv) =>
    .ok (call_custom_functions fuel defs (rpLookup d) (dKeys d) allReq allReq knownList)

/-- Outcome of a call through the `myFeature` contract wrapper. -/
inductive WrapResult (V : Type) where
  | missingParam (name : String)
  | missingReturn (name : String)
  | ok (result : List (String × V))
deriving DecidableEq, Repr

/-- The wrapper `wrapped_f` installed by the `myFeature` decorator
(`custom_feature_tools.py:89-101`).  `args` is the tuple of positional
argument values; Python's `required_arg not in args` compares the required
NAME against each positional VALUE with `==`, modelled by the oracle
`beqStr`.  `required_arg not in kwargs` is key membership.  The first
missing required name raises `MissingRequiredParameterError` before `f`
runs; then the first declared provided key absent from the returned
dictionary raises `MissingRequiredReturnKeyError`; otherwise the result of
`f` is returned unchanged. -/
def wrapped_f {V : Type} (beqStr : V → String → Bool)
    (reqList provList : List String)
    (f : List V → List (String × V) → List (String × V))
    (args : List V) (kwargs : List (String × V)) : WrapResult V :=
  match reqList.find? (fun r => !(args.any (fun a => beqStr a r)) && !(dmem kwargs r)) with
  | some r => .missingParam r
  | none =>
    let result_dict := f args kwargs
    match provList.find? (fun p => !(dmem result_dict p)) with
    | some p => .missingReturn p
    | none => .ok result_dict

/-- Errors arising in the time-series normalization path.  `typeError`
models Python's `TypeError` from subscripting `None`; `missingTsInput`
models the `ValueError("No time series data provided! ...")`. -/
inductive TsErr where
  | typeError
  | missingTsInput
  | emptyTsData
  | unequalRowLengths
  | dataFormat
deriving DecidableEq, Repr

/-- `parse_tsdata_to_lists` (`custom_feature_tools.py:305-340`) restricted
to the nested-sequence input shape the claims exercise: a non-empty list
whose elements are per-epoch rows is returned as is; an empty list raises
`ValueError("ts_data is an empty list")`.  (The CSV-text shapes of the
source convert strings to rows and are outside this model.) -/
def parse_tsdata_to_lists {A : Type} (ts_data : List (List A)) :
    Except TsErr (List (List A)) :=
  if ts_data.isEmpty then .error .emptyTsData else .ok ts_data

/-- `parse_tsdata_from_file` (`custom_feature_tools.py:343-354`), with
`np.loadtxt` modelled as the already-parsed rows of the file: keep the first
three columns and raise `DataFormatError` when a row has fewer than two. -/
def parse_tsdata_from_file {A : Type} (rows : List (List A)) :
    Except TsErr (List (List A)) :=
  let rows3 := rows.map (fun r => r.take 3)
  if rows3.any (fun r => decide (r.length < 2)) then .error .dataFormat
  else .ok rows3

/-- The column-splitting tail of `add_tsdata_to_feats_known_dict`
(`custom_feature_tools.py:377-395`): with `float` conversion modelled as
the identity on the abstract scalar type, set `t`, `m` (and `e` for
three-column rows) from the transposed rows, or raise when the rows do not
all have the same usable length. -/
def add_tme {A : Type} (inst : List (String × List A)) (tme : List (List A)) :
    Except TsErr (List (String × List A)) :=
  if tme.isEmpty then .ok inst
  else if tme.all (fun r => decide (r.length = 3)) then
    .ok (inst ++ [("t", tme.filterMap (fun r => r[0]?)),
                  ("m", tme.filterMap (fun r => r[1]?)),
                  ("e", tme.filterMap (fun r => r[2]?))])
  else if tme.all (fun r => decide (r.length = 2)) then
    .ok (inst ++ [("t", tme.filterMap (fun r => r[0]?)),
                  ("m", tme.filterMap (fun r => r[1]?))])
  else .error .unequalRowLengths

/-- Per-instance body of the loop in `add_tsdata_to_feats_known_dict`
(`custom_feature_tools.py:365-395`).  `dataOpt`'s outer `Option` is whether
`ts_data_list` is still the scalar `None` (it is when BOTH arguments were
`None`, because the listification uses `elif`); the inner `Option` is the
per-instance entry.  The membership test `paths[i] is None and
ts_data_list[i] is None` short-circuits, so the `TypeError` from
subscripting `None` fires exactly when the path entry is `None` and
`ts_data_list` is the scalar `None`. -/
def add_tsdata_one {A : Type} (inst : List (String × List A))
    (path : Option (List (List A))) (dataOpt : Option (Option (List (List A)))) :
    Except TsErr (List (String × List A)) :=
  if dmem inst "t" && dmem inst "m" then .ok inst
  else
    match path, dataOpt with
    | none, none => .error .typeError
    | none, some none => .error .missingTsInput
    | some rows, _ =>
      match parse_tsdata_from_file rows with
      | .error e => .error e
      | .ok tme => add_tme inst tme
    | none, some (some d) =>
      match parse_tsdata_to_lists d with
      | .error e => .error e
      | .ok tme => add_tme inst tme

/-- The instance loop of `add_tsdata_to_feats_known_dict`, index-aligned
over the instances and the two per-instance source lists. -/
def add_tsdata_go {A : Type} :
    List (List (String × List A)) → List (Option (List (List A))) →
    Option (List (Option (List (List A)))) →
    Except TsErr (List (List (String × List A)))
  | [], _, _ => .ok []
  | inst :: irest, pths, datas =>
    match add_tsdata_one inst (pths.headD none) (datas.map (fun dl => dl.headD none)) with
    | .error e => .error e
    | .ok inst2 =>
      match add_tsdata_go irest pths.tail (datas.map List.tail) with
      | .error e => .error e
      | .ok rest2 => .ok (inst2 :: rest2)

/-- `add_tsdata_to_feats_known_dict` (`custom_feature_tools.py:357-395`).
A file path argument is modelled by the parsed rows of the file it points
to.  The listification of the two `None` arguments reproduces the source's
`if ... elif ...`: when `ts_datafile_paths` is `None`, `ts_data_list` is
left as given — in particular still the scalar `None` when both were
`None`. -/
def add_tsdata_to_feats_known_dict {A : Type}
    (instances : List (List (String × List A)))
    (paths : Option (List (Option (List (List A)))))
    (datas : Option (List (Option (List (List A))))) :
    Except TsErr (List (List (String × List A))) :=
  let n := instances.length
  let paths2 : List (Option (List (List A))) :=
    match paths with
    | none => List.replicate n none
    | some p => p
  let datas2 : Option (List (Option (List (List A)))) :=
    match paths, datas with
    | none, d => d
    | some _, none => some (List.replicate n none)
    | some _, some d => some d
  add_tsdata_go instances paths2 datas2

/-- The steps of the `try` block of `extract_feats_in_docker_container`
(`custom_feature_tools.py:433-462`), in program order. -/
inductive DockerStep where
  | clientInit
  | createContainer
  | startContainer
  | waitContainer
  | getLogs
  | copyResults
  | loadResults
deriving DecidableEq, Repr

/-- Local state of `extract_feats_in_docker_container`: which locals are
bound, whether the container exists, and whether an exception has been
raised (aborting the remaining steps of the `try` block). -/
structure ExtractState (R : Type) where
  clientBound : Bool
  contIdBound : Bool
  containerExists : Bool
  results : Option R
  raised : Bool

/-- Execute one step of the `try` block: a step is skipped once an
exception is in flight; the injected failure point `failAt` models the
step that raises (Docker launch failure, the in-container user function
failing so that the results file never exists and `docker_copy` raises,
a corrupt pickle, and so on). -/
def runStep {R : Type} (failAt : Option DockerStep) (result : R)
    (s : ExtractState R) (step : DockerStep) : ExtractState R :=
  if s.raised then s
  else if failAt = some step then { s with raised := true }
  else
    match step with
    | .clientInit => { s with clientBound := true }
    | .createContainer => { s with contIdBound := true, containerExists := true }
    | .loadResults => { s with results := some result }
    | _ => s

/-- What the caller of a sandbox-phase function observes: a returned value,
or a `NameError` raised from the `finally` block when it references a local
(`cont_id`, or `results_list_of_dict` in the `return`) that the aborted
`try` block never bound. -/
inductive CallOutcome (R : Type) where
  | ok (r : R)
  | nameError
deriving DecidableEq, Repr

/-- `extract_feats_in_docker_container` (`custom_feature_tools.py:427-468`).
The `try` block runs the seven steps; `except: pass` discards whatever was
raised; the `finally` block force-removes the container when `cont_id` is
bound (raising `NameError` itself when it is not) and then executes
`return results_list_of_dict`, which raises `NameError` when that local was
never bound.  Returns (whether the container still exists afterwards, what
the caller observes). -/
def extract_feats_in_docker_container {R : Type} (failAt : Option DockerStep)
    (result : R) : Bool × CallOutcome R :=
  let steps := [DockerStep.clientInit, .createContainer, .startContainer,
                .waitContainer, .getLogs, .copyResults, .loadResults]
  let s := steps.foldl (runStep failAt result)
    ⟨false, false, false, none, false⟩
  if s.contIdBound then
    match s.results with
    | some r => (false, .ok r)
    | none => (false, .nameError)
  else
    (s.containerExists, .nameError)

/-- Host-side ephemeral state of one sandboxed run. -/
structure TmpState where
  tmpDirExists : Bool
deriving DecidableEq, Repr

/-- `remove_tmp_files` (`custom_feature_tools.py:471-487`):
`shutil.rmtree(path_to_tmp_dir, ignore_errors=True)` plus best-effort
removal of stale leftovers — the ephemeral directory is gone on every
call. -/
def remove_tmp_files (_s : TmpState) : TmpState := ⟨false⟩

/-- The sandbox phase of `docker_extract_features`
(`custom_feature_tools.py:537-550`): after `make_tmp_dir` creates the
ephemeral directory, the `try` block runs
`extract_feats_in_docker_container`, `except: raise` re-raises whatever
reaches it, and the `finally` block calls `remove_tmp_files` on every exit
path.  Returns (ephemeral directory exists afterwards, container exists
afterwards, what the caller observes). -/
def docker_extract_features {R : Type} (failAt : Option DockerStep)
    (result : R) : Bool × Bool × CallOutcome R :=
  let tmp : TmpState := ⟨true⟩
  let (contExists, out) := extract_feats_in_docker_container failAt result
  ((remove_tmp_files tmp).tmpDirExists, contExists, out)

/-! ## Concrete scripts and contract sets used by individual claims -/

/-- A script whose single function requires a name (`u`) that is neither an
initially known feature nor provided by any function. -/
def c1lines : List String :=
  ["@myFeature(requires=[\"u\"], provides=[\"v\"])", "def f(x):", "    return 1"]

/-- The contract dictionary `parse_for_req_prov_params` extracts from
`c1lines`. -/
def c1dict : List (String × ReqsProvs) := [("f", ⟨["u"], ["v"]⟩)]

def c1rp : String → ReqsProvs := rpLookup c1dict

def c1defs : String → List (String × Nat) → List (String × Nat) :=
  fun _ _ => [("v", 1)]

/-- Two functions mutually requiring each other's sole provided output. -/
def c2rp : String → ReqsProvs :=
  fun f => if f == "f" then ⟨["a"], ["b"]⟩ else ⟨["b"], ["a"]⟩

def c2defs : String → List (String × Nat) → List (String × Nat) :=
  fun _ _ => []

/-- No adjacent line pair has the contract marker followed by a `def `
line. -/
def noMarkerDefPair : List String → Bool
  | l0 :: l1 :: rest =>
    !(containsSub l0 "@myFeature" && containsSub l1 "def ") &&
      noMarkerDefPair (l1 :: rest)
  | _ => true

/-- The dictionary the scheduler has accumulated after merging, in order,
the result dictionaries of a list of executed functions. -/
def mergeResults {V : Type} (ents : List (ExecEntry V)) : List (String × V) :=
  (ents.map (fun e => e.result)).flatten

/-- The gathered arguments of each executed function in a trace come from
the initially known features and exactly the outputs merged by the
functions executed strictly earlier in the execution sequence. -/
def ArgsChain {V : Type} (rp : String → ReqsProvs) (known : List (String × V)) :
    List (String × V) → List (ExecEntry V) → Prop
  | _, [] => True
  | ext, e :: rest =>
    e.args = gatherArgs known ext (rp e.fname).reqList ∧
    ArgsChain rp known (ext ++ e.result) rest

/-- `order` is a topological order for the contract set: each function's
required names are all available (initially known, or provided by a
function strictly earlier in `order`) before it.  The existence of such an
order is the standard formalization of "every required name initially known
or provided by some function, and no dependency cycle". -/
def topoOK (rp : String → ReqsProvs) (avail : List String) : List String → Bool
  | [] => true
  | f :: rest =>
    (rp f).reqList.all (fun r => avail.contains r) &&
      topoOK rp (avail ++ (rp f).provList) rest

/-- Three functions: `f1` turns the known `m` into `x`, `f3` turns `m` into
`z`, `f2` turns `x` into `y`.  Listed in the order `[f1, f3, f2]`, the
iterator skip after executing `f1` lands on `f2`, which by then is eligible
because `f1` just removed `x` from the pending set — so `f2` runs in round
0, consuming a value produced in its own round. -/
def c4defs : String → List (String × Nat) → List (String × Nat) := fun f _ =>
  if f == "f1" then [("x", 42)] else if f == "f3" then [("z", 7)] else [("y", 9)]

def c4rp : String → ReqsProvs := fun f =>
  if f == "f1" then ⟨["m"], ["x"]⟩
  else if f == "f3" then ⟨["m"], ["z"]⟩
  else ⟨["x"], ["y"]⟩

/-- The execution trace of the `c4defs`/`c4rp` run from
`KnownFeatures = [(m, 0)]`. -/
def c4trace : List (ExecEntry Nat) :=
  [⟨"f1", 0, [("m", 0)], [("x", 42)]⟩,
   ⟨"f2", 0, [("x", 42)], [("y", 9)]⟩,
   ⟨"f3", 1, [("m", 0)], [("z", 7)]⟩]

/-- A two-function pipeline with no cycle: `f1` needs the known `m` and
provides `x`; `f2` needs `x` and provides `y`. -/
def c3rp : String → ReqsProvs := fun f =>
  if f == "f1" then ⟨["m"], ["x"]⟩ else ⟨["x"], ["y"]⟩

def c3defs : String → List (String × Nat) → List (String × Nat) := fun f _ =>
  if f == "f1" then [("x", 1)] else [("y", 2)]

/-- One function needing only the known `m`. -/
def c4wrp : String → ReqsProvs := fun _ => ⟨["m"], ["x"]⟩

def c4wdefs : String → List (String × Nat) → List (String × Nat) :=
  fun _ _ => [("x", 9)]

/-- `g1` provides `x` (also present in KnownFeatures, with a different
value); `g2` requires `x`. -/
def c10rp : String → ReqsProvs := fun f =>
  if f == "g1" then ⟨[], ["x"]⟩ else ⟨["x"], ["y"]⟩

def c10defs : String → List (String × Nat) → List (String × Nat) := fun f _ =>
  if f == "g1" then [("x", 99)] else [("y", 5)]

/-- On the `c1lines` script (pending set `["u"]`, provided set passed as the
required set), every round defers the lone function and changes nothing, so
the loop never terminates at any fuel. -/
theorem c1_hang_aux :
    ∀ fuel i, runRounds c1defs c1rp [] fuel i ["f"] ["u"] [] [] = .hang
  | 0, _ => rfl
  | fuel + 1, i => c1_hang_aux fuel (i + 1)

/-- On the two-function cycle, every round defers both functions and changes
nothing, so the loop never terminates at any fuel. -/
theorem c2_hang_aux :
    ∀ fuel i, runRounds c2defs c2rp [] fuel i ["f", "g"] ["a", "b"] [] [] = .hang
  | 0, _ => rfl
  | fuel + 1, i => c2_hang_aux fuel (i + 1)

/-- **C1** (code_bug evidence).  `execute_functions_in_order` passes
`all_required_params` as both the required and the provided parameter sets
(`custom_feature_tools.py:297-299`), so on a script requiring the
unsatisfiable name `u` the unsatisfiable-dependency check never fires and
the run livelocks (`.hang` at every fuel) instead of failing.  Called
directly with the correctly computed provided set — the claim's intended
behavior — `call_custom_functions` does fail with the unsatisfiable
dependency `u` before any user function runs (the outcome is the same for
every `defs` oracle and every fuel). -/
theorem c1_unsat_check_bypassed_in_batch_entry :
    (∀ fuel : Nat, execute_functions_in_order fuel c1defs c1lines [[]] = .ok .hang) ∧
    (∀ (fuel : Nat) (defs : String → List (String × Nat) → List (String × Nat)),
      call_custom_functions_one fuel defs c1rp ["f"] ["u"] ["v"] [] = .unsat "u") := by
  constructor
  · intro fuel
    have h : call_custom_functions_one fuel c1defs c1rp ["f"] ["u"] ["u"]
        ([] : List (String × Nat)) = .hang := c1_hang_aux fuel 0
    show Except.ok (call_custom_functions fuel c1defs c1rp ["f"] ["u"] ["u"] [[]]) = _
    simp only [call_custom_functions, h]
  · intro fuel defs
    rfl

/-- **C2** (code_bug evidence).  On a contract set with a dependency cycle —
`f` requires `a` and provides `b`, `g` requires `b` and provides `a`,
neither name initially known — the scheduler's round loop makes no progress
and never exits: the run is `.hang` at every fuel, i.e. the source loops
forever, and no `CyclicDependency` error is ever raised. -/
theorem c2_cyclic_contract_hangs (fuel : Nat) :
    call_custom_functions_one fuel c2defs c2rp ["f", "g"] ["a", "b"] ["a", "b"]
      ([] : List (String × Nat)) = .hang := by
  show runRounds c2defs c2rp [] fuel 0 ["f", "g"] ["a", "b"] [] [] = .hang
  exact c2_hang_aux fuel 0

/-- **C7**.  For every outcome of a sandboxed run — success (`failAt =
none`), a user-function failure inside the container (`copyResults` raises
because the results file was never produced), or a failure to launch the
environment (`clientInit`, `createContainer`, `startContainer`) — after
`docker_extract_features` finishes, the ephemeral working directory no
longer exists and the container no longer exists. -/
theorem c7_sandbox_cleanup_on_every_outcome {R : Type}
    (failAt : Option DockerStep) (result : R) :
    (docker_extract_features failAt result).1 = false ∧
    (docker_extract_features failAt result).2.1 = false := by
  cases failAt with
  | none => exact ⟨rfl, rfl⟩
  | some s => cases s <;> exact ⟨rfl, rfl⟩

/-- **C6** (code_bug evidence).  When the launch/retrieve phase fails
(container start failure, and likewise a client-instantiation failure), the
`except: pass` in `extract_feats_in_docker_container` swallows the original
error and the `finally` block's use of the never-bound
`results_list_of_dict` (or `cont_id`) local raises `NameError` instead:
the caller observes `.nameError`, never the original failure, and
`docker_extract_features` propagates that `NameError` after removing the
ephemeral directory. -/
theorem c6_launch_failure_original_error_lost {R : Type} (result : R) :
    extract_feats_in_docker_container (some .startContainer) result
      = (false, .nameError) ∧
    docker_extract_features (some .startContainer) result
      = (false, false, .nameError) ∧
    extract_feats_in_docker_container (some .clientInit) result
      = (false, .nameError) := ⟨rfl, rfl, rfl⟩

/-- **C9** (code_bug evidence).  When both `ts_datafile_paths` and
`ts_data_list` are `None` and an instance lacks `t`/`m`, the `elif` at
`custom_feature_tools.py:361-364` leaves `ts_data_list` as the scalar
`None` and the membership test subscripts it: the call fails with
`TypeError`, not the documented `ValueError` (`MissingTimeSeriesInput`).
With at least one argument a real list, the per-instance
no-source case does fail with that `ValueError`, and a single usable raw
data source populates `t`, `m` and (for three-column rows) `e`. -/
theorem c9_both_none_raises_type_error :
    add_tsdata_to_feats_known_dict ([[]] : List (List (String × List Int))) none none
      = .error .typeError ∧
    add_tsdata_to_feats_known_dict ([[]] : List (List (String × List Int)))
      (some [none]) none = .error .missingTsInput ∧
    add_tsdata_to_feats_known_dict
      ([[("coords", [8, 9])]] : List (List (String × List Int)))
      none (some [some [[1, 2, 3], [4, 5, 6]]])
      = .ok [[("coords", [8, 9]), ("t", [1, 4]), ("m", [2, 5]), ("e", [3, 6])]] ∧
    add_tsdata_to_feats_known_dict
      ([[("coords", [8, 9])]] : List (List (String × List Int)))
      none (some [some [[1, 2], [4, 5]]])
      = .ok [[("coords", [8, 9]), ("t", [1, 4]), ("m", [2, 5])]] :=
  ⟨rfl, rfl, rfl, rfl⟩

theorem scanPairs_noPair :
    ∀ lines, noMarkerDefPair lines = true → scanPairs lines = .ok []
  | [], _ => rfl
  | [_], _ => rfl
  | l0 :: l1 :: rest, h => by
    have hsplit := h
    simp only [noMarkerDefPair, Bool.and_eq_true, Bool.not_eq_true'] at hsplit
    have htail := scanPairs_noPair (l1 :: rest) hsplit.2
    simp only [scanPairs, hsplit.1, Bool.false_eq_true, if_false]
    exact htail

/-- **C8** counterexample.  A line containing the contract marker whose
`requires` list literal is malformed (Python `eval` raises `SyntaxError`),
immediately followed by a function declaration line, makes
`parse_for_req_prov_params` fail — the annotation is not skipped. -/
theorem c8_malformed_literal_raises :
    parse_for_req_prov_params
      ["@myFeature(requires=[oops, provides=[\"v\"])", "def f(x):"]
      = .error "SyntaxError: malformed list literal in annotation" := rfl

/-- **C8** (amended).  The parser is total on annotations that are not
immediately followed by a function declaration line: any script with no
adjacent (marker line, `def ` line) pair parses without failure, the
annotations being skipped and omitted from the result.  (Malformed list
literals on a matched annotation line, by contrast, raise —
`c8_malformed_literal_raises`.) -/
theorem c8_nonadjacent_annotations_skipped (lines : List String)
    (h : noMarkerDefPair lines = true) :
    parse_for_req_prov_params lines = .ok ([], [], []) := by
  have hs := scanPairs_noPair lines h
  simp only [parse_for_req_prov_params, hs]
  rfl

/-- Witness for `c8_nonadjacent_annotations_skipped` at a concrete script:
an annotation followed by a non-`def` line is skipped without failure. -/
theorem c8_nonadjacent_annotations_skipped_witness :
    parse_for_req_prov_params
      ["@myFeature(requires=[\"u\"], provides=[\"v\"])", "x = 1", "def f(x):"]
      = .ok ([], [], []) :=
  c8_nonadjacent_annotations_skipped
    ["@myFeature(requires=[\"u\"], provides=[\"v\"])", "x = 1", "def f(x):"] rfl

theorem runRound_spec {V : Type} (defs : String → List (String × V) → List (String × V))
    (rp : String → ReqsProvs) (known : List (String × V)) (i : Nat) :
    ∀ (n : Nat) (toVisit : List String), toVisit.length ≤ n →
    ∀ (pending : List String) (extracted : List (String × V)) (trace : List (ExecEntry V)),
    ∃ ents : List (ExecEntry V),
      (runRound defs rp known i toVisit pending extracted trace).trace = trace ++ ents ∧
      (runRound defs rp known i toVisit pending extracted trace).extracted
        = extracted ++ mergeResults ents ∧
      (runRound defs rp known i toVisit pending extracted trace).pending
        = pending.filter (fun x => ents.all (fun e => !((rp e.fname).provList.contains x))) ∧
      toVisit.Perm ((runRound defs rp known i toVisit pending extracted trace).rem
        ++ ents.map (fun e => e.fname)) ∧
      ArgsChain rp known extracted ents ∧
      ((∃ f ∈ toVisit, ∀ r ∈ (rp f).reqList, r ∉ pending) → ents ≠ []) := by
  intro n
  induction n with
  | zero =>
    intro toVisit hlen pending extracted trace
    have hnil : toVisit = [] := List.eq_nil_of_length_eq_zero (Nat.le_zero.mp hlen)
    subst hnil
    refine ⟨[], ?_, ?_, ?_, ?_, ?_, ?_⟩ <;> simp [runRound, mergeResults, ArgsChain]
  | succ n ih =>
    intro toVisit hlen pending extracted trace
    cases toVisit with
    | nil =>
      refine ⟨[], ?_, ?_, ?_, ?_, ?_, ?_⟩ <;> simp [runRound, mergeResults, ArgsChain]
    | cons f rest =>
      have hlen2 : rest.length ≤ n := by
        simp only [List.length_cons] at hlen; omega
      cases hc : pending.any (fun x => (rp f).reqList.contains x) with
      | true =>
        obtain ⟨ents, h1, h2, h3, h4, h5, h6⟩ := ih rest hlen2 pending extracted trace
        refine ⟨ents, ?_, ?_, ?_, ?_, h5, ?_⟩
        · simp only [runRound, hc]; exact h1
        · simp only [runRound, hc]; exact h2
        · simp only [runRound, hc]; exact h3
        · simp only [runRound, hc, List.cons_append]
          exact h4.cons f
        · intro hex
          obtain ⟨f2, hf2, helig⟩ := hex
          rcases List.mem_cons.mp hf2 with heq | hmem
          · subst heq
            obtain ⟨x, hx, hxr⟩ := List.any_eq_true.mp hc
            exact absurd hx (helig x (by simpa using hxr))
          · exact h6 ⟨f2, hmem, helig⟩
      | false =>
        cases rest with
        | nil =>
          refine ⟨[⟨f, i, gatherArgs known extracted (rp f).reqList,
                   defs f (gatherArgs known extracted (rp f).reqList)⟩], ?_, ?_, ?_, ?_, ?_, ?_⟩
          · simp only [runRound, hc]
          · simp only [runRound, hc, mergeResults, List.map_cons, List.map_nil,
              List.flatten_cons, List.flatten_nil, List.append_nil]
          · simp only [runRound, hc]
            exact List.filter_congr (fun x hx => by simp)
          · simp only [runRound, hc, List.map_cons, List.map_nil, List.nil_append]
            exact List.Perm.refl _
          · exact ⟨rfl, trivial⟩
          · exact fun _ => List.cons_ne_nil _ _
        | cons g rest2 =>
          have hlen3 : rest2.length ≤ n := by
            simp only [List.length_cons] at hlen; omega
          obtain ⟨ents, h1, h2, h3, h4, h5, h6⟩ := ih rest2 hlen3
            (pending.filter (fun x => !((rp f).provList.contains x)))
            (extracted ++ defs f (gatherArgs known extracted (rp f).reqList))
            (trace ++ [⟨f, i, gatherArgs known extracted (rp f).reqList,
                       defs f (gatherArgs known extracted (rp f).reqList)⟩])
          refine ⟨⟨f, i, gatherArgs known extracted (rp f).reqList,
                   defs f (gatherArgs known extracted (rp f).reqList)⟩ :: ents,
                  ?_, ?_, ?_, ?_, ⟨rfl, h5⟩, ?_⟩
          · simp only [runRound, hc]
            rw [h1, List.append_assoc, List.singleton_append]
          · simp only [runRound, hc]
            rw [h2, List.append_assoc]
            simp [mergeResults]
          · simp only [runRound, hc]
            rw [h3, List.filter_filter]
            exact List.filter_congr (fun x hx => by simp [Bool.and_comm])
          · simp only [runRound, hc, List.map_cons, List.cons_append]
            exact (List.Perm.swap g f rest2).trans
              (((h4.cons f).trans List.perm_middle.symm).cons g)
          · exact fun _ => List.cons_ne_nil _ _

theorem mergeResults_append {V : Type} (a b : List (ExecEntry V)) :
    mergeResults (a ++ b) = mergeResults a ++ mergeResults b := by
  simp [mergeResults]

theorem ArgsChain_append {V : Type} (rp : String → ReqsProvs) (known : List (String × V)) :
    ∀ (a b : List (ExecEntry V)) (ext : List (String × V)),
      ArgsChain rp known ext a → ArgsChain rp known (ext ++ mergeResults a) b →
      ArgsChain rp known ext (a ++ b)
  | [], b, ext, _, hb => by simpa [mergeResults] using hb
  | e :: a, b, ext, ha, hb => by
    obtain ⟨ha1, ha2⟩ := ha
    refine ⟨ha1, ArgsChain_append rp known a b (ext ++ e.result) ha2 ?_⟩
    have hme : ext ++ mergeResults (e :: a) = (ext ++ e.result) ++ mergeResults a := by
      simp [mergeResults]
    rw [hme] at hb
    exact hb

theorem runRounds_ok_spec {V : Type} (defs : String → List (String × V) → List (String × V))
    (rp : String → ReqsProvs) (known : List (String × V)) :
    ∀ (fuel : Nat), ∀ (i : Nat) (funcnames pending : List String) (extracted : List (String × V))
      (trace : List (ExecEntry V)) (ext : List (String × V)) (tr : List (ExecEntry V)),
      runRounds defs rp known fuel i funcnames pending extracted trace = .ok ext tr →
      ∃ ents : List (ExecEntry V),
        tr = trace ++ ents ∧
        funcnames.Perm (ents.map (fun e => e.fname)) ∧
        ArgsChain rp known extracted ents ∧
        ext = extracted ++ mergeResults ents := by
  intro fuel
  induction fuel with
  | zero =>
    intro i fn p e t ext tr h
    exact absurd h (by simp [runRounds])
  | succ fuel ih =>
    intro i funcnames pending extracted trace ext tr h
    cases funcnames with
    | nil =>
      simp only [runRounds] at h
      injection h with h1 h2
      subst h1; subst h2
      exact ⟨[], by simp, by simp, trivial, by simp [mergeResults]⟩
    | cons f rest =>
      simp only [runRounds] at h
      obtain ⟨ents2, g1, g2, g3, g4⟩ := ih (i + 1) _ _ _ _ _ _ h
      obtain ⟨ents1, h1, h2, h3, h4, h5, h6⟩ :=
        runRound_spec defs rp known i (f :: rest).length (f :: rest) le_rfl pending extracted trace
      refine ⟨ents1 ++ ents2, ?_, ?_, ?_, ?_⟩
      · rw [g1, h1, List.append_assoc]
      · have hp := h4.trans (((g2.append_right (ents1.map (fun e => e.fname)))).trans
          List.perm_append_comm)
        simpa using hp
      · exact ArgsChain_append rp known ents1 ents2 extracted h5 (h2 ▸ g3)
      · rw [g4, h2, mergeResults_append, List.append_assoc]

theorem elig_of_topo {rp : String → ReqsProvs} :
    ∀ (order avail : List String), topoOK rp avail order = true →
    ∀ (execd remaining pending : List String),
      (execd ++ remaining).Perm order → remaining ≠ [] →
      (∀ x ∈ pending, x ∉ avail ∧ ∀ f ∈ execd, x ∉ (rp f).provList) →
      ∃ g ∈ remaining, ∀ r ∈ (rp g).reqList, r ∉ pending := by
  intro order
  induction order with
  | nil =>
    intro avail _ execd remaining pending hperm hne _
    exact absurd (List.append_eq_nil.mp (List.Perm.eq_nil hperm)).2 hne
  | cons f rest ih =>
    intro avail htopo execd remaining pending hperm hne hpend
    simp only [topoOK, Bool.and_eq_true] at htopo
    obtain ⟨hreqs, htopo2⟩ := htopo
    by_cases hf : f ∈ remaining
    · refine ⟨f, hf, fun r hr hrp => ?_⟩
      have h2 : r ∈ avail := by
        have := List.all_eq_true.mp hreqs r hr
        simpa using this
      exact (hpend r hrp).1 h2
    · have hfex : f ∈ execd := by
        have hm : f ∈ execd ++ remaining := hperm.mem_iff.mpr (List.mem_cons_self f rest)
        rcases List.mem_append.mp hm with h | h
        · exact h
        · exact absurd h hf
      have hperm2 : ((execd.erase f) ++ remaining).Perm rest := by
        have he := hperm.erase f
        rw [List.erase_append_left remaining hfex] at he
        simpa [List.erase_cons_head] using he
      refine ih (avail ++ (rp f).provList) htopo2 (execd.erase f) remaining pending hperm2 hne ?_
      intro x hx
      obtain ⟨hxa, hxe⟩ := hpend x hx
      refine ⟨?_, fun f2 hf2 => hxe f2 (List.mem_of_mem_erase hf2)⟩
      intro hmem
      rcases List.mem_append.mp hmem with h | h
      · exact hxa h
      · exact hxe f hfex h

theorem runRounds_terminates {V : Type} (defs : String → List (String × V) → List (String × V))
    (rp : String → ReqsProvs) (known : List (String × V)) (order : List String)
    (htopo : topoOK rp (known.map Prod.fst) order = true) :
    ∀ (fuel : Nat), ∀ (i : Nat) (remaining pending : List String) (extracted : List (String × V))
      (trace : List (ExecEntry V)) (execd : List String),
      remaining.length < fuel →
      (execd ++ remaining).Perm order →
      (∀ x ∈ pending, x ∉ known.map Prod.fst ∧ ∀ f ∈ execd, x ∉ (rp f).provList) →
      ∃ ext tr, runRounds defs rp known fuel i remaining pending extracted trace = .ok ext tr := by
  intro fuel
  induction fuel with
  | zero =>
    intro i remaining pending extracted trace execd hlt
    exact absurd hlt (Nat.not_lt_zero _)
  | succ fuel ih =>
    intro i remaining pending extracted trace execd hlt hperm hpend
    cases remaining with
    | nil => exact ⟨extracted, trace, by simp [runRounds]⟩
    | cons f rest =>
      obtain ⟨ents, h1, h2, h3, h4, h5, h6⟩ :=
        runRound_spec defs rp known i (f :: rest).length (f :: rest) le_rfl pending extracted trace
      set o := runRound defs rp known i (f :: rest) pending extracted trace with ho
      obtain ⟨g, hg, helig⟩ := elig_of_topo order (known.map Prod.fst) htopo execd
        (f :: rest) pending hperm (List.cons_ne_nil f rest) hpend
      have hne : ents ≠ [] := h6 ⟨g, hg, helig⟩
      have hlenr : o.rem.length ≤ rest.length := by
        have hl := h4.length_eq
        rw [List.length_append] at hl
        simp only [List.length_cons] at hl
        have hp : 0 < (ents.map (fun e => e.fname)).length := by
          simp only [List.length_pos]
          simpa using hne
        omega
      have hperm2 : ((execd ++ ents.map (fun e => e.fname)) ++ o.rem).Perm order := by
        have step1 : ((execd ++ ents.map (fun e => e.fname)) ++ o.rem).Perm
            (execd ++ (f :: rest)) := by
          rw [List.append_assoc]
          exact List.Perm.append_left execd (List.perm_append_comm.trans h4.symm)
        exact step1.trans hperm
      have hpend2 : ∀ x ∈ o.pending,
          x ∉ known.map Prod.fst ∧
          ∀ f2 ∈ execd ++ ents.map (fun e => e.fname), x ∉ (rp f2).provList := by
        intro x hx
        rw [h3] at hx
        obtain ⟨hxp, hall⟩ := List.mem_filter.mp hx
        obtain ⟨hknown, hexec⟩ := hpend x hxp
        refine ⟨hknown, fun f2 hf2 => ?_⟩
        rcases List.mem_append.mp hf2 with h | h
        · exact hexec f2 h
        · obtain ⟨e, he, rfl⟩ := List.mem_map.mp h
          have hae := List.all_eq_true.mp hall e he
          simpa using hae
      obtain ⟨ext, tr, heq⟩ := ih (i + 1) o.rem o.pending o.extracted o.trace
        (execd ++ ents.map (fun e => e.fname)) (by simp only [List.length_cons] at hlt; omega) hperm2 hpend2
      refine ⟨ext, tr, ?_⟩
      simp only [runRounds]
      exact heq

theorem dmem_of_mem_keys {V : Type} :
    ∀ (d : List (String × V)) (x : String), x ∈ d.map Prod.fst → dmem d x = true := by
  intro d
  induction d with
  | nil => intro x hx; simp at hx
  | cons p rest ih =>
    intro x hx
    simp only [dmem, dget?]
    cases hr : dget? rest x with
    | some w => simp
    | none =>
      rw [List.map_cons] at hx
      rcases List.mem_cons.mp hx with heq | hmem
      · simp [heq.symm]
      · have hd := ih x hmem
        rw [dmem, hr] at hd
        simp at hd

theorem call_one_eq_runRounds {V : Type} (fuel : Nat)
    (defs : String → List (String × V) → List (String × V)) (rp : String → ReqsProvs)
    (funcnames allReq allProv : List String) (known : List (String × V))
    (h : (allReq.filter (fun x => !(dmem known x))).find?
        (fun r => !(allProv.contains r)) = none) :
    call_custom_functions_one fuel defs rp funcnames allReq allProv known
      = runRounds defs rp known fuel 0 funcnames
          (allReq.filter (fun x => !(dmem known x))) [] [] := by
  simp only [call_custom_functions_one, h]

/-- **C3**.  For every contract set admitting a topological order (every
required name initially known or provided by a strictly earlier function —
the well-formed, cycle-free case) and enough fuel, the scheduler terminates
with success and invokes each declared function exactly once. -/
theorem c3_acyclic_wellformed_runs_each_function_once {V : Type}
    (defs : String → List (String × V) → List (String × V)) (rp : String → ReqsProvs)
    (funcnames order allReq allProv : List String) (known : List (String × V)) (fuel : Nat)
    (hnodup : funcnames.Nodup)
    (hperm : order.Perm funcnames)
    (htopo : topoOK rp (known.map Prod.fst) order = true)
    (hwf : ∀ r ∈ allReq, dmem known r = true ∨ r ∈ allProv)
    (hfuel : funcnames.length < fuel) :
    ∃ ext tr,
      call_custom_functions_one fuel defs rp funcnames allReq allProv known = .ok ext tr ∧
      (tr.map (fun e => e.fname)).Perm funcnames ∧
      ∀ f ∈ funcnames, (tr.map (fun e => e.fname)).count f = 1 := by
  have hfind : (allReq.filter (fun x => !(dmem known x))).find?
      (fun r => !(allProv.contains r)) = none := by
    apply List.find?_eq_none.mpr
    intro r hr
    obtain ⟨hra, hrd⟩ := List.mem_filter.mp hr
    have hprov : r ∈ allProv := by
      rcases hwf r hra with h | h
      · rw [h] at hrd; simp at hrd
      · exact h
    simp [hprov]
  rw [call_one_eq_runRounds fuel defs rp funcnames allReq allProv known hfind]
  have hpend0 : ∀ x ∈ allReq.filter (fun x => !(dmem known x)),
      x ∉ known.map Prod.fst ∧ ∀ f ∈ ([] : List String), x ∉ (rp f).provList := by
    intro x hx
    obtain ⟨hxa, hxd⟩ := List.mem_filter.mp hx
    refine ⟨fun hmem => ?_, by simp⟩
    rw [dmem_of_mem_keys known x hmem] at hxd
    simp at hxd
  obtain ⟨ext, tr, heq⟩ := runRounds_terminates defs rp known order htopo fuel 0 funcnames
    (allReq.filter (fun x => !(dmem known x))) [] [] [] hfuel
    (by simpa using hperm.symm) hpend0
  obtain ⟨ents, e1, e2, e3, e4⟩ := runRounds_ok_spec defs rp known fuel 0 funcnames _ [] [] ext tr heq
  have hq : (tr.map (fun e => e.fname)).Perm funcnames := by
    rw [e1]
    simpa using e2.symm
  refine ⟨ext, tr, heq, hq, fun f hf => ?_⟩
  rw [hq.count_eq]
  exact List.count_eq_one_of_mem hnodup hf

/-- Witness for `c3_acyclic_wellformed_runs_each_function_once` on the
two-function pipeline `c3rp`. -/
theorem c3_acyclic_wellformed_witness :
    ∃ ext tr,
      call_custom_functions_one 3 c3defs c3rp ["f1", "f2"] ["m", "x"] ["x", "y"]
        [("m", 5)] = .ok ext tr ∧
      (tr.map (fun e => e.fname)).Perm ["f1", "f2"] ∧
      ∀ f ∈ ["f1", "f2"], (tr.map (fun e => e.fname)).count f = 1 :=
  c3_acyclic_wellformed_runs_each_function_once c3defs c3rp ["f1", "f2"] ["f1", "f2"]
    ["m", "x"] ["x", "y"] [("m", 5)] 3 (by decide) (List.Perm.refl _) (by decide)
    (by decide) (by decide)

theorem gatherArgs_mem {V : Type} (known E : List (String × V)) :
    ∀ (reqs : List String) (kv : String × V), kv ∈ gatherArgs known E reqs →
      dget? known kv.1 = some kv.2 ∨ dget? E kv.1 = some kv.2 := by
  intro reqs
  induction reqs with
  | nil => intro kv h; simp [gatherArgs] at h
  | cons r rest ih =>
    intro kv h
    simp only [gatherArgs] at h
    cases h1 : dget? known r with
    | some v =>
      simp only [h1] at h
      rcases List.mem_cons.mp h with rfl | hm
      · exact Or.inl h1
      · exact ih kv hm
    | none =>
      simp only [h1] at h
      cases h2 : dget? E r with
      | some v =>
        simp only [h2] at h
        rcases List.mem_cons.mp h with rfl | hm
        · exact Or.inr h2
        · exact ih kv hm
      | none =>
        simp only [h2] at h
        exact ih kv h

theorem dget_gatherArgs_known {V : Type} (known E : List (String × V)) (req : String)
    (hk : dmem known req = true) :
    ∀ reqs : List String,
      dget? (gatherArgs known E reqs) req
        = if req ∈ reqs then dget? known req else none := by
  obtain ⟨w, hw⟩ := Option.isSome_iff_exists.mp hk
  intro reqs
  induction reqs with
  | nil => simp [gatherArgs, dget?]
  | cons r rest ih =>
    by_cases hreq : r = req
    · subst hreq
      simp only [gatherArgs, hw]
      by_cases hc : r ∈ rest
      · simp [dget?, ih, hc, hw]
      · simp [dget?, ih, hc, hw]
    · have hbeq : (r == req) = false := by simpa using hreq
      have hne2 : ¬(req = r) := fun hh => hreq hh.symm
      simp only [gatherArgs]
      by_cases hc : req ∈ rest
      · cases h1 : dget? known r with
        | some v => simp [dget?, ih, hc, hw, List.mem_cons, hne2]
        | none =>
          cases h2 : dget? E r with
          | some v => simp [dget?, ih, hc, hw, List.mem_cons, hne2]
          | none => simp [ih, hc, List.mem_cons, hne2]
      · cases h1 : dget? known r with
        | some v => simp [dget?, ih, hc, hbeq, List.mem_cons, hne2]
        | none =>
          cases h2 : dget? E r with
          | some v => simp [dget?, ih, hc, hbeq, List.mem_cons, hne2]
          | none => simp [ih, hc, List.mem_cons, hne2]

theorem ArgsChain_mem {V : Type} (rp : String → ReqsProvs) (known : List (String × V)) :
    ∀ (tr : List (ExecEntry V)) (ext : List (String × V)), ArgsChain rp known ext tr →
      ∀ e ∈ tr, ∃ E, e.args = gatherArgs known E (rp e.fname).reqList
  | [], _, _, e, he => absurd he (List.not_mem_nil e)
  | e0 :: tr, ext, h, e, he => by
    obtain ⟨h1, h2⟩ := h
    rcases List.mem_cons.mp he with rfl | hm
    · exact ⟨ext, h1⟩
    · exact ArgsChain_mem rp known tr (ext ++ e0.result) h2 e hm

theorem ArgsChain_get {V : Type} (rp : String → ReqsProvs) (known : List (String × V)) :
    ∀ (tr : List (ExecEntry V)) (ext : List (String × V)), ArgsChain rp known ext tr →
      ∀ (j : Nat) (hj : j < tr.length),
        (tr.get ⟨j, hj⟩).args
          = gatherArgs known (ext ++ mergeResults (tr.take j))
              (rp (tr.get ⟨j, hj⟩).fname).reqList
  | [], _, _, j, hj => absurd hj (by simp)
  | e0 :: tr, ext, h, 0, hj => by
    obtain ⟨h1, _⟩ := h
    simpa [mergeResults] using h1
  | e0 :: tr, ext, h, j + 1, hj => by
    obtain ⟨_, h2⟩ := h
    have hrec := ArgsChain_get rp known tr (ext ++ e0.result) h2 j
      (Nat.lt_of_succ_lt_succ (by simpa using hj))
    simpa [mergeResults, List.append_assoc] using hrec

theorem call_one_ok_chain {V : Type} (fuel : Nat)
    (defs : String → List (String × V) → List (String × V)) (rp : String → ReqsProvs)
    (funcnames allReq allProv : List String) (known ext : List (String × V))
    (tr : List (ExecEntry V))
    (h : call_custom_functions_one fuel defs rp funcnames allReq allProv known = .ok ext tr) :
    ArgsChain rp known [] tr ∧ funcnames.Perm (tr.map (fun e => e.fname)) ∧
      ext = mergeResults tr := by
  cases hfind : (allReq.filter (fun x => !(dmem known x))).find?
      (fun r => !(allProv.contains r)) with
  | some r =>
    rw [call_custom_functions_one] at h
    simp only [hfind] at h
    exact absurd h (by simp)
  | none =>
    rw [call_one_eq_runRounds fuel defs rp funcnames allReq allProv known hfind] at h
    obtain ⟨ents, e1, e2, e3, e4⟩ := runRounds_ok_spec defs rp known fuel 0 funcnames _ [] [] ext tr h
    rw [List.nil_append] at e1
    subst e1
    exact ⟨e3, e2, by simpa using e4⟩

/-- **C4** (amended).  In every successful scheduler run, the function
executed at position `j` of the execution sequence gathers its arguments
from the initially known features and the merge of the outputs of exactly
the functions executed strictly earlier in that sequence: every gathered
argument value comes from KnownFeatures or from a strictly earlier executed
function, never from a later one.  (Strictly earlier IN THE SEQUENCE — not
strictly earlier in round number: a same-round, earlier-executed function
can contribute, which is what refutes the claim as stated.) -/
theorem c4_amended_args_from_strictly_earlier {V : Type} (fuel : Nat)
    (defs : String → List (String × V) → List (String × V)) (rp : String → ReqsProvs)
    (funcnames allReq allProv : List String) (known ext : List (String × V))
    (tr : List (ExecEntry V))
    (h : call_custom_functions_one fuel defs rp funcnames allReq allProv known = .ok ext tr)
    (j : Nat) (hj : j < tr.length) :
    (tr.get ⟨j, hj⟩).args
      = gatherArgs known (mergeResults (tr.take j)) (rp (tr.get ⟨j, hj⟩).fname).reqList ∧
    ∀ kv ∈ (tr.get ⟨j, hj⟩).args,
      dget? known kv.1 = some kv.2 ∨ dget? (mergeResults (tr.take j)) kv.1 = some kv.2 := by
  obtain ⟨hchain, _, _⟩ := call_one_ok_chain fuel defs rp funcnames allReq allProv known ext tr h
  have hget := ArgsChain_get rp known tr [] hchain j hj
  rw [List.nil_append] at hget
  refine ⟨hget, fun kv hkv => ?_⟩
  rw [hget] at hkv
  exact gatherArgs_mem known (mergeResults (tr.take j)) _ kv hkv

/-- Witness for `c4_amended_args_from_strictly_earlier`: a one-function run
whose single entry gathers `m` from KnownFeatures. -/
theorem c4_amended_args_witness :
    (([⟨"h1", 0, [("m", 3)], [("x", 9)]⟩] : List (ExecEntry Nat)).get ⟨0, by decide⟩).args
      = gatherArgs [("m", 3)]
          (mergeResults (([⟨"h1", 0, [("m", 3)], [("x", 9)]⟩] : List (ExecEntry Nat)).take 0))
          (c4wrp (([⟨"h1", 0, [("m", 3)], [("x", 9)]⟩] :
            List (ExecEntry Nat)).get ⟨0, by decide⟩).fname).reqList ∧
    ∀ kv ∈ (([⟨"h1", 0, [("m", 3)], [("x", 9)]⟩] : List (ExecEntry Nat)).get ⟨0, by decide⟩).args,
      dget? [("m", 3)] kv.1 = some kv.2 ∨
      dget? (mergeResults (([⟨"h1", 0, [("m", 3)], [("x", 9)]⟩] :
        List (ExecEntry Nat)).take 0)) kv.1 = some kv.2 :=
  c4_amended_args_from_strictly_earlier 2 c4wdefs c4wrp ["h1"] ["m"] ["x"] [("m", 3)]
    [("x", 9)] [⟨"h1", 0, [("m", 3)], [("x", 9)]⟩] rfl 0 (by decide)

/-- **C10**.  Whenever a required name is a key of the caller-supplied
KnownFeatures mapping, the argument the scheduler passes for it is the
KnownFeatures value — derived features of the same name never shadow it. -/
theorem c10_given_features_shadow_derived {V : Type} (fuel : Nat)
    (defs : String → List (String × V) → List (String × V)) (rp : String → ReqsProvs)
    (funcnames allReq allProv : List String) (known ext : List (String × V))
    (tr : List (ExecEntry V))
    (h : call_custom_functions_one fuel defs rp funcnames allReq allProv known = .ok ext tr)
    (e : ExecEntry V) (he : e ∈ tr) (req : String)
    (hreq : req ∈ (rp e.fname).reqList) (hk : dmem known req = true) :
    dget? e.args req = dget? known req := by
  obtain ⟨hchain, _, _⟩ := call_one_ok_chain fuel defs rp funcnames allReq allProv known ext tr h
  obtain ⟨E, hE⟩ := ArgsChain_mem rp known tr [] hchain e he
  rw [hE, dget_gatherArgs_known known E req hk]
  simp [hreq]

/-- Witness for `c10_given_features_shadow_derived`: `g1` derives `x = 99`
in round 0, yet `g2`, which requires `x`, receives the KnownFeatures value
`x = 10`. -/
theorem c10_given_features_shadow_witness :
    dget? (⟨"g2", 1, [("x", 10)], [("y", 5)]⟩ : ExecEntry Nat).args "x"
      = dget? [("x", 10)] "x" :=
  c10_given_features_shadow_derived 3 c10defs c10rp ["g1", "g2"] ["x"] ["x", "y"]
    [("x", 10)] [("x", 99), ("y", 5)]
    [⟨"g1", 0, [], [("x", 99)]⟩, ⟨"g2", 1, [("x", 10)], [("y", 5)]⟩] rfl
    ⟨"g2", 1, [("x", 10)], [("y", 5)]⟩ (by decide) "x" (by decide) (by decide)

/-- **C4** counterexample.  In the concrete run recorded by `c4trace`
(functions declared in the order `[f1, f3, f2]`, KnownFeatures
`[(m, 0)]`), `f2` executes in round 0 and its gathered argument `x = 42`
is neither a KnownFeatures value nor produced by any function of a
strictly earlier round: it was produced by `f1`, also of round 0 — the
iterator skip after `f1`'s removal lands on `f2` after `f1`'s execution
already drained the pending set.  The claim as stated is false. -/
theorem c4_round_order_claim_fails :
    call_custom_functions_one 5 c4defs c4rp ["f1", "f3", "f2"] ["m", "x"]
      ["x", "z", "y"] [("m", 0)] = .ok [("x", 42), ("y", 9), ("z", 7)] c4trace ∧
    ¬ (∀ e ∈ c4trace, ∀ kv ∈ e.args,
        dget? [("m", 0)] kv.1 = some kv.2 ∨
        ∃ e2 ∈ c4trace, e2.round < e.round ∧ dget? e2.result kv.1 = some kv.2) := by
  constructor
  · rfl
  · decide

/-- **C5**.  The `myFeature` wrapper: (1) if some declared required name is
absent from both the positional values and the keyword argument keys, the
call fails with `MissingRequiredParameterError` carrying such a (the first
such) name, for EVERY wrapped body — the body never runs; (2) if all
required names are present but some declared provided key is absent from
the returned dictionary, the call fails with
`MissingRequiredReturnKeyError` carrying such a key; (3) otherwise the
wrapper returns the body's result unchanged. -/
theorem c5_wrapper_enforces_contract {V : Type} (beqStr : V → String → Bool)
    (reqList provList : List String)
    (f : List V → List (String × V) → List (String × V))
    (args : List V) (kwargs : List (String × V)) :
    ((∃ r ∈ reqList, args.any (fun a => beqStr a r) = false ∧ dmem kwargs r = false) →
      ∃ r ∈ reqList, args.any (fun a => beqStr a r) = false ∧ dmem kwargs r = false ∧
        ∀ g, wrapped_f beqStr reqList provList g args kwargs = .missingParam r) ∧
    ((∀ r ∈ reqList, args.any (fun a => beqStr a r) = true ∨ dmem kwargs r = true) →
      (∃ p ∈ provList, dmem (f args kwargs) p = false) →
      ∃ p ∈ provList, dmem (f args kwargs) p = false ∧
        wrapped_f beqStr reqList provList f args kwargs = .missingReturn p) ∧
    ((∀ r ∈ reqList, args.any (fun a => beqStr a r) = true ∨ dmem kwargs r = true) →
      (∀ p ∈ provList, dmem (f args kwargs) p = true) →
      wrapped_f beqStr reqList provList f args kwargs = .ok (f args kwargs)) := by
  have hfind : (∀ r ∈ reqList, args.any (fun a => beqStr a r) = true ∨ dmem kwargs r = true) →
      reqList.find? (fun r => !(args.any (fun a => beqStr a r)) && !(dmem kwargs r)) = none := by
    intro hall
    apply List.find?_eq_none.mpr
    intro r hr
    rcases hall r hr with h | h <;> simp [h]
  refine ⟨?_, ?_, ?_⟩
  · rintro ⟨r, hr, hany, hkw⟩
    cases hf : reqList.find? (fun r => !(args.any (fun a => beqStr a r)) && !(dmem kwargs r)) with
    | none =>
      exfalso
      have hn := List.find?_eq_none.mp hf r hr
      simp [hany, hkw] at hn
    | some r2 =>
      have hmem := List.mem_of_find?_eq_some hf
      have hp := List.find?_some hf
      simp only [Bool.and_eq_true, Bool.not_eq_true'] at hp
      refine ⟨r2, hmem, hp.1, hp.2, fun g => ?_⟩
      simp only [wrapped_f, hf]
  · intro hall hexp
    have hnone := hfind hall
    obtain ⟨p, hp, hpd⟩ := hexp
    cases hf2 : provList.find? (fun p => !(dmem (f args kwargs) p)) with
    | none =>
      exfalso
      have hn := List.find?_eq_none.mp hf2 p hp
      simp [hpd] at hn
    | some p2 =>
      have hmem := List.mem_of_find?_eq_some hf2
      have hp2 := List.find?_some hf2
      simp only [Bool.not_eq_true'] at hp2
      refine ⟨p2, hmem, hp2, ?_⟩
      simp only [wrapped_f, hnone, hf2]
  · intro hall hcomp
    have hnone := hfind hall
    have hnone2 : provList.find? (fun p => !(dmem (f args kwargs) p)) = none := by
      apply List.find?_eq_none.mpr
      intro p hp
      simp [hcomp p hp]
    simp only [wrapped_f, hnone, hnone2]

/-- Witness for `c5_wrapper_enforces_contract`: a call missing required
`m` fails before the body runs; a call with `m` supplied as a keyword
argument and a complete return passes through unchanged. -/
theorem c5_wrapper_enforces_contract_witness :
    wrapped_f (fun (_ : Nat) (_ : String) => false) ["m"] ["x"]
      (fun _ _ => [("x", 5)]) [] [] = .missingParam "m" ∧
    wrapped_f (fun (_ : Nat) (_ : String) => false) ["m"] ["x"]
      (fun _ _ => [("x", 5)]) [] [("m", 3)] = .ok [("x", 5)] := by
  constructor
  · obtain ⟨r, hr, _, _, hall⟩ :=
      (c5_wrapper_enforces_contract (fun (_ : Nat) (_ : String) => false) ["m"] ["x"]
        (fun _ _ => [("x", 5)]) [] []).1 (by decide)
    have hrm : r = "m" := List.mem_singleton.mp hr
    subst hrm
    exact hall _
  · exact (c5_wrapper_enforces_contract (fun (_ : Nat) (_ : String) => false) ["m"] ["x"]
      (fun _ _ => [("x", 5)]) [] [("m", 3)]).2.2 (by decide) (by decide)
